import Mathlib

/-
Verification development for the streamlet_rust repository.

This file gives a shallow embedding of the consensus core in
`src/structures/node.rs` (together with the data types in `block.rs`,
`metadata.rs` and `vote.rs`) and proves properties of it.

Modelling choices, stated once here:

* Machine integers (`u64`, `usize`) are modelled as `Nat`; no arithmetic in
  the embedded code can overflow on the inputs considered, and the only
  wrap/panic behaviour that matters (`x % 0` panics in Rust) is modelled
  explicitly with `Except`.
* Rust panics (`assert!`, `panic!`, `unwrap`, out-of-bounds indexing,
  division by zero) are modelled by `Except.error` carrying the panic
  message; a panic aborts the call, so no post-state is produced.
* `std::collections::hash_map::DefaultHasher` is modelled by keeping the
  list of block-identity triples written into the hasher and applying an
  injective encoding (`digest`) to that list when `finish()` is called.
  The source renders the `u64` digest with `to_string` and stores it in
  `Block.h : String`; since that rendering is injective and parent hashes
  are only ever compared for equality, we keep digests (and `Block.h`) as
  `Nat` directly.  The idealisation `digest` = injective function of the
  write sequence is exactly the "deterministic, collision-free network
  hash" contract of the spec.
* RSA signing/verification (openssl, external to the repository) is
  modelled by its contract: a keypair is a `Nat`, `sign` is deterministic
  and `verify_sig pk m s` holds iff `s = sign pk m`.
* `Metadata.timestamp` is never read by the consensus core and is omitted.
* Time is external: the elapsed-seconds reading `now` (and hence the
  current epoch) is passed as an explicit argument where the source reads
  the clock.
-/

namespace StreamletRust

/-! ## Injective encodings (model of the network hash and of signatures) -/

/-- Injective encoding of a list, given an encoding of its elements
(model of a hasher write stream: distinct write sequences give distinct
digests). -/
def encList (f : α → Nat) : List α → Nat
  | [] => 0
  | a :: l => Nat.pair (f a) (encList f l) + 1

/-- Encoding of a transaction string. -/
def encStr (s : String) : Nat := encList Char.toNat s.toList

/-- The identity triple of a block: `(h, e, txs)`.  Both `PartialEq` and
`Hash` on the source `Block` use exactly this triple (metadata excluded). -/
abbrev BlockCore := Nat × Nat × List String

/-- Encoding of a block identity triple (what `Hash for Block` writes). -/
def encCore : BlockCore → Nat
  | (h, e, txs) => Nat.pair h (Nat.pair e (encList encStr txs))

/-- `hasher.finish()` after the given block triples were written into the
hasher, modelled as an injective function of the write sequence. -/
def digest (l : List BlockCore) : Nat := encList encCore l

/-- Model of `DefaultHasher` over the `u64` epoch number used for leader
election (`get_epoch_leader`); any fixed deterministic function works. -/
def leaderHash (e : Nat) : Nat := Nat.pair e e

/-- Deterministic signature of a message by a keypair
(contract of the external RSA signer). -/
def sign (key msg : Nat) : List Nat := [Nat.pair key msg]

/-- Signature verification, per the spec contract: `verify(pk, m, s)` holds
iff `s` was produced by signing `m` with the key `pk`. -/
def verify_sig (pk msg : Nat) (sig : List Nat) : Bool := sig == sign pk msg

/-! ## Data model: `Block`, `Metadata`, `Vote` (block.rs, metadata.rs, vote.rs) -/

mutual
/-- `Metadata` of metadata.rs: votes, notarized flag, finalized flag
(timestamp omitted, it is never read). -/
inductive Metadata : Type where
  | mk (votes : List Vote) (notarized : Bool) (finalized : Bool)
/-- `Block` of block.rs: parent hash `h`, epoch `e`, transactions `txs`,
and metadata. -/
inductive Block : Type where
  | mk (h : Nat) (e : Nat) (txs : List String) (metadata : Metadata)
/-- `Vote` of vote.rs: signature bytes, a by-value copy of the voted block,
and the voter id. -/
inductive Vote : Type where
  | mk (vote : List Nat) (block : Block) (id : Nat)
end

def Block.h : Block → Nat | .mk h _ _ _ => h

def Block.e : Block → Nat | .mk _ e _ _ => e

def Block.txs : Block → List String | .mk _ _ t _ => t

def Block.metadata : Block → Metadata | .mk _ _ _ m => m

def Metadata.votes : Metadata → List Vote | .mk v _ _ => v

def Metadata.notarized : Metadata → Bool | .mk _ n _ => n

def Metadata.finalized : Metadata → Bool | .mk _ _ f => f

def Vote.vote : Vote → List Nat | .mk v _ _ => v

def Vote.block : Vote → Block | .mk _ b _ => b

def Vote.id : Vote → Nat | .mk _ _ i => i

/-- The identity triple of a block (the tuple hashed by `Hash for Block`). -/
def Block.core (b : Block) : BlockCore := (b.h, b.e, b.txs)

def Block.votes (b : Block) : List Vote := b.metadata.votes

def Block.notarized (b : Block) : Bool := b.metadata.notarized

def Block.finalized (b : Block) : Bool := b.metadata.finalized

/-- Replace the votes list of a block (source: `metadata.votes` mutation). -/
def Block.setVotes : Block → List Vote → Block
  | .mk h e t (.mk _ n f), v => .mk h e t (.mk v n f)

/-- Set the notarized flag (source: `metadata.notarized` mutation). -/
def Block.setNotarized : Block → Bool → Block
  | .mk h e t (.mk v _ f), n => .mk h e t (.mk v n f)

/-- Set the finalized flag (source: `metadata.finalized` mutation). -/
def Block.setFinalized : Block → Bool → Block
  | .mk h e t (.mk v n _), f => .mk h e t (.mk v n f)

/-- `Block::new`: fresh metadata (no votes, not notarized, not finalized). -/
def Block.new (h e : Nat) (txs : List String) : Block :=
  .mk h e txs (.mk [] false false)

/-- `PartialEq for Block`: identity triple only, metadata excluded. -/
def blockEqb (a b : Block) : Bool :=
  a.h == b.h && a.e == b.e && a.txs == b.txs

/-- `PartialEq for Vote` (derived): signature bytes, block (by the custom
block equality), voter id. -/
def voteEqb (v w : Vote) : Bool :=
  v.vote == w.vote && blockEqb v.block w.block && v.id == w.id

/-- `Vec::contains` on a votes list, using the `Vote` equality above. -/
def containsVote (l : List Vote) (v : Vote) : Bool := l.any (fun w => voteEqb w v)

/-- `Block::signature_encode`: a canonical encoding of the identity triple
(the source formats the triple to bytes; only equality of encodings of
equal triples matters, so we encode the triple injectively). -/
def signature_encode (b : Block) : Nat := encCore b.core

/-! ## `Blockchain` (blockchain.rs is not under src/; operations modelled
from the spec) -/

/-- A blockchain: ordered sequence of blocks, head first, tip last. -/
structure Blockchain : Type where
  blocks : List Block

/-- Modelled from the spec: `Blockchain::new(init_block)` of the missing
blockchain.rs, "seeded with a single block" (spec 4.2). -/
def Blockchain.new (b : Block) : Blockchain := ⟨[b]⟩

/-- Modelled from the spec: `Blockchain::add_block(block)` of the missing
blockchain.rs, "appends; caller has verified linkage" (spec 4.2). -/
def Blockchain.addBlock (bc : Blockchain) (b : Block) : Blockchain :=
  ⟨bc.blocks ++ [b]⟩

/-- Modelled from the spec: `Blockchain::is_notarized` of the missing
blockchain.rs, "true iff every block in the sequence has
`metadata.notarized == true`" (spec 3). -/
def Blockchain.isNotarized (bc : Blockchain) : Bool :=
  bc.blocks.all (fun b => b.notarized)

/-! ## `Node` state (node.rs) -/

/-- The node state of node.rs.  `genesis_time` is replaced by passing the
elapsed-seconds clock reading explicitly; the keypair is a `Nat`. -/
structure Node : Type where
  id : Nat
  keypair : Nat
  canonical_blockchain : Blockchain
  node_blockchains : List Blockchain
  unconfirmed_transactions : List String

/-! ## Leader election (node.rs lines 63-83) -/

/-- `get_current_epoch`: elapsed seconds divided by `2 * delta`, delta = 5. -/
def get_current_epoch (now : Nat) : Nat := now / (2 * 5)

/-- `get_epoch_leader`: hash of the epoch modulo `nodes_count`.  In Rust,
`% 0` panics before anything else happens; modelled as an error. -/
def get_epoch_leader (now nodes_count : Nat) : Except String Nat :=
  if nodes_count == 0 then
    .error "attempt to calculate the remainder with a divisor of zero"
  else
    .ok (leaderHash (get_current_epoch now) % nodes_count)

/-- `check_if_epoch_leader`: the node is leader iff its id equals the
epoch leader. -/
def check_if_epoch_leader (s : Node) (now nodes_count : Nat) :
    Except String Bool :=
  (get_epoch_leader now nodes_count).map (fun leader => s.id == leader)

/-! ## Unproposed transactions (node.rs lines 85-100) -/

/-- `iter().position(p)` followed by `Vec::remove(pos)`: remove the first
occurrence of `t`, if any (keeping everything before it, dropping the
first match, keeping everything after it). -/
def removeFirstPos : List String → String → List String
  | [], _ => []
  | x :: xs, t => if x == t then xs else x :: removeFirstPos xs t

/-- `get_unproposed_transactions`: walk all fork chains (the canonical
chain is not consulted by the source) and for every transaction of every
block remove one matching entry from a copy of the pool. -/
def get_unproposed_transactions (s : Node) : List String :=
  s.node_blockchains.foldl
    (fun acc bc =>
      bc.blocks.foldl
        (fun acc b => b.txs.foldl (fun acc t => removeFirstPos acc t) acc)
        acc)
    s.unconfirmed_transactions

/-! ## Longest notarized chain and proposal (node.rs lines 102-117, 188-199) -/

/-- Loop of `find_longest_notarized_chain`: `length` starts at 0 (not at
the canonical chain's length) and a fork replaces the current best iff it
is notarized and strictly longer than `length`. -/
def flncLoop (best : Blockchain) (len : Nat) :
    List Blockchain → Blockchain
  | [] => best
  | bc :: rest =>
    if bc.isNotarized && bc.blocks.length > len then
      flncLoop bc bc.blocks.length rest
    else
      flncLoop best len rest

/-- `find_longest_notarized_chain`: fold over the fork chains starting
from the canonical chain with `length = 0`. -/
def find_longest_notarized_chain (s : Node) : Blockchain :=
  flncLoop s.canonical_blockchain 0 s.node_blockchains

/-- `propose_block`: hash the tip of the longest notarized chain (fresh
hasher), collect unproposed transactions, build and sign the block.
Returns the node's keypair together with the proposal `Vote`. -/
def propose_block (s : Node) (now : Nat) : Except String (Nat × Vote) :=
  let epoch := get_current_epoch now
  let lnc := find_longest_notarized_chain s
  match lnc.blocks.getLast? with
  | none => .error "called Option unwrap on a None value"
  | some last =>
    let proposed := Block.new (digest [last.core]) epoch
      (get_unproposed_transactions s)
    .ok (s.keypair,
      Vote.mk (sign s.keypair (signature_encode proposed)) proposed s.id)

/-! ## Which chain does a block extend? (node.rs lines 169-186) -/

/-- Loop of `find_extended_blockchain_index`.  The source creates a single
`DefaultHasher` before the loop and keeps writing every inspected tip into
it, so the digest compared for chain `i` is a function of the tips of
chains `0..=i`.  `acc` is the list of triples written so far. -/
def feLoop (block : Block) :
    List Blockchain → List BlockCore → Nat →
    Except String (Option Nat × List BlockCore)
  | [], acc, _ => .ok (none, acc)
  | bc :: rest, acc, i =>
    match bc.blocks.getLast? with
    | none => .error "called Option unwrap on a None value"
    | some last =>
      let acc' := acc ++ [last.core]
      if block.h == digest acc' && block.e > last.e then
        .ok (some i, acc')
      else
        feLoop block rest acc' (i + 1)

/-- `find_extended_blockchain_index`: try every fork chain with the shared
accumulating hasher, then the canonical chain (still the same hasher); a
block extending nothing is a fatal error.  Returns the fork index, or `-1`
for the canonical chain. -/
def find_extended_blockchain_index (s : Node) (block : Block) :
    Except String Int :=
  match feLoop block s.node_blockchains [] 0 with
  | .error e => .error e
  | .ok (some i, _) => .ok (i : Int)
  | .ok (none, acc) =>
    match s.canonical_blockchain.blocks.getLast? with
    | none => .error "called Option unwrap on a None value"
    | some last =>
      if block.h != digest (acc ++ [last.core]) || block.e ≤ last.e then
        .error "Proposed block does not extend any known chains."
      else
        .ok (-1)

/-! ## Voting (node.rs lines 134-167) -/

/-- `extends_notarized_blockchain`: every block of the chain except the
last one is notarized. -/
def extends_notarized_blockchain (bc : Blockchain) : Bool :=
  (bc.blocks.take (bc.blocks.length - 1)).all (fun b => b.notarized)

/-- `vote_block`: place the block on the chain it extends (a new fork
chain when it extends the canonical tip), then vote iff the chain's
prefix is fully notarized. -/
def vote_block (s : Node) (block : Block) :
    Except String (Node × Option Vote) :=
  match find_extended_blockchain_index s block with
  | .error e => .error e
  | .ok index =>
    let sbc :=
      if index == -1 then
        let nbc := Blockchain.new block
        ({ s with node_blockchains := s.node_blockchains ++ [nbc] }, nbc)
      else
        let old := (s.node_blockchains.get? index.toNat).getD ⟨[]⟩
        let nbc := old.addBlock block
        ({ s with node_blockchains := s.node_blockchains.set index.toNat nbc },
          nbc)
    if extends_notarized_blockchain sbc.2 then
      .ok (sbc.1,
        some (Vote.mk (sign s.keypair (signature_encode block)) block s.id))
    else
      .ok (sbc.1, none)

/-- `receive_proposed_block`: assert the sender is the epoch leader,
verify the proposal signature, then vote.  Both assertion failures are
fatal; the leader computation itself panics when `nodes_count = 0`. -/
def receive_proposed_block (s : Node) (leader_public_key : Nat)
    (proposed_block_vote : Vote) (nodes_count now : Nat) :
    Except String (Node × Option Vote) :=
  match get_epoch_leader now nodes_count with
  | .error e => .error e
  | .ok leader =>
    if leader != proposed_block_vote.id then
      .error "assertion failed: proposer is not the epoch leader"
    else if !(verify_sig leader_public_key
        (signature_encode proposed_block_vote.block)
        proposed_block_vote.vote) then
      .error "assertion failed: proposal signature verification"
    else
      vote_block s proposed_block_vote.block

/-! ## Locating a block (node.rs lines 237-253) -/

/-- Scan a chain's blocks from tip to root (`iter().rev()`) for the first
block equal to `vb`; return its forward index. -/
def revFindIdx (blocks : List Block) (vb : Block) : Option Nat :=
  match blocks.reverse.findIdx? (fun b => blockEqb vb b) with
  | some r => some (blocks.length - 1 - r)
  | none => none

/-- Loop of `find_block` over the fork chains. -/
def fbLoop (vb : Block) : List Blockchain → Nat → Option (Block × Int × Nat)
  | [], _ => none
  | bc :: rest, i =>
    match revFindIdx bc.blocks vb with
    | some p =>
      match bc.blocks.get? p with
      | some b => some (b, (i : Int), p)
      | none => none
    | none => fbLoop vb rest (i + 1)

/-- `find_block`: search every fork chain (in order, each scanned from tip
to root) and then the canonical chain (index `-1`) for a block equal to
`vb`; return the stored block, its chain index and its position. -/
def find_block (s : Node) (vb : Block) : Option (Block × Int × Nat) :=
  match fbLoop vb s.node_blockchains 0 with
  | some r => some r
  | none =>
    match revFindIdx s.canonical_blockchain.blocks vb with
    | some p =>
      match s.canonical_blockchain.blocks.get? p with
      | some b => some (b, (-1 : Int), p)
      | none => none
    | none => none

/-- The blocks of the chain addressed by a `find_block` index: `-1` is the
canonical chain, a nonnegative index is a fork chain (an invalid index is
a Rust indexing panic at the use sites). -/
def chainBlocksAt (s : Node) (ci : Int) : Option (List Block) :=
  if ci == -1 then some s.canonical_blockchain.blocks
  else if ci < 0 then none
  else (s.node_blockchains.get? ci.toNat).map (fun bc => bc.blocks)

/-- The block at position `pos` of the chain addressed by `ci`. -/
def blockAt (s : Node) (ci : Int) (pos : Nat) : Option Block :=
  (chainBlocksAt s ci).bind (fun l => l.get? pos)

/-- Write back a block at position `pos` of the chain addressed by `ci`
(the source mutates the block in place through a `&mut` reference). -/
def setBlockAt (s : Node) (ci : Int) (pos : Nat) (b : Block) : Node :=
  if ci == -1 then
    { s with canonical_blockchain := ⟨s.canonical_blockchain.blocks.set pos b⟩ }
  else
    { s with node_blockchains :=
        match s.node_blockchains.get? ci.toNat with
        | some bc =>
          s.node_blockchains.set ci.toNat ⟨bc.blocks.set pos b⟩
        | none => s.node_blockchains }

/-! ## Finalization (node.rs lines 255-313) -/

/-- Transaction removal of the finalization loop: for every finalized
block in order, remove each of its transactions (first occurrence) from
the unconfirmed pool. -/
def removeTxsOfBlocks (pool : List String) (blocks : List Block) :
    List String :=
  blocks.foldl (fun p b => b.txs.foldl (fun p t => removeFirstPos p t) p) pool

/-- The move step of `check_blockchain_finalization` (lines 277-293) for a
chain with blocks `C` and `k` leading notarized blocks: mark the first
`k - 1` blocks finalized, remove their transactions from the pool, drain
them from the chain and push them onto the canonical chain.  When the
finalizing chain is the canonical chain itself (`ci = -1`) the drain and
the push act on the same vector. -/
def moveBlocks (s : Node) (ci : Int) (C : List Block) (k : Nat) : Node :=
  let fin := (C.take (k - 1)).map (fun b => b.setFinalized true)
  let pool' := removeTxsOfBlocks s.unconfirmed_transactions fin
  let rest := C.drop (k - 1)
  if ci == -1 then
    { s with canonical_blockchain := ⟨rest ++ fin⟩,
             unconfirmed_transactions := pool' }
  else
    { s with node_blockchains := s.node_blockchains.set ci.toNat ⟨rest⟩,
             canonical_blockchain := ⟨s.canonical_blockchain.blocks ++ fin⟩,
             unconfirmed_transactions := pool' }

/-- `Vec::remove(i)`: panics when the index is out of bounds. -/
def vecRemove (l : List Blockchain) (i : Nat) : Except String (List Blockchain) :=
  if i < l.length then .ok (l.eraseIdx i) else .error "removal index out of bounds"

/-- Collect the indices of the fork chains to drop (lines 299-307):
a chain is dropped when its root block does not have the canonical tip's
digest as parent hash with a strictly larger epoch.  `first().unwrap()` on
an empty chain is a panic. -/
def collectDropped (tiph tipe : Nat) :
    List Blockchain → Nat → Except String (List Nat)
  | [], _ => .ok []
  | bc :: rest, i =>
    match bc.blocks.head? with
    | none => .error "called Option unwrap on a None value"
    | some fb =>
      match collectDropped tiph tipe rest (i + 1) with
      | .error e => .error e
      | .ok l =>
        if fb.h != tiph || fb.e ≤ tipe then .ok (i :: l) else .ok l

/-- The removal loop of lines 308-310: `Vec::remove` applied to the
collected indices in ascending order (each removal shifts the indices of
the remaining chains). -/
def removeLoop (chains : List Blockchain) :
    List Nat → Except String (List Blockchain)
  | [] => .ok chains
  | i :: rest =>
    match vecRemove chains i with
    | .error e => .error e
    | .ok chains' => removeLoop chains' rest

/-- The pruning step of `check_blockchain_finalization` (lines 295-310):
hash the canonical tip with a fresh hasher, collect the fork chains whose
root does not extend it, then remove them by index. -/
def prunePhase (s : Node) : Except String Node :=
  match s.canonical_blockchain.blocks.getLast? with
  | none => .error "called Option unwrap on a None value"
  | some tip =>
    match collectDropped (digest [tip.core]) tip.e s.node_blockchains 0 with
    | .error e => .error e
    | .ok dropped =>
      match removeLoop s.node_blockchains dropped with
      | .error e => .error e
      | .ok chains' => .ok { s with node_blockchains := chains' }

/-- `check_blockchain_finalization`: if the addressed chain is longer than
two blocks and its longest notarized prefix (from the root) is longer than
two blocks, move that prefix minus its last block onto the canonical chain
and prune the fork chains; otherwise do nothing. -/
def check_blockchain_finalization (s : Node) (blockchain_index : Int) :
    Except String Node :=
  match chainBlocksAt s blockchain_index with
  | none => .error "index out of bounds"
  | some C =>
    if C.length > 2 then
      let consecutive_notarized := (C.takeWhile (fun b => b.notarized)).length
      if consecutive_notarized > 2 then
        prunePhase (moveBlocks s blockchain_index C consecutive_notarized)
      else
        .ok s
    else
      .ok s

/-! ## Vote reception (node.rs lines 201-235) -/

/-- `receive_vote`: verify the vote signature, locate the voted block
(fatal if unknown), append the vote unless an equal vote is already
present, and when the deduplicated vote count exceeds `2 * nodes_count / 3`
on a block that is not yet notarized, notarize it and check finalization
of its chain. -/
def receive_vote (s : Node) (node_public_key : Nat) (vote : Vote)
    (nodes_count : Nat) : Except String Node :=
  if !(verify_sig node_public_key (signature_encode vote.block) vote.vote) then
    .error "assertion failed: vote signature verification"
  else
    match find_block s vote.block with
    | none => .error "Received vote for unknown block."
    | some (b, ci, pos) =>
      let votes' := if containsVote b.votes vote then b.votes
                    else b.votes ++ [vote]
      let s1 := setBlockAt s ci pos (b.setVotes votes')
      if !b.notarized && votes'.length > 2 * nodes_count / 3 then
        check_blockchain_finalization
          (setBlockAt s1 ci pos ((b.setVotes votes').setNotarized true)) ci
      else
        .ok s1

/-! ## Spec-side reference definitions (used to compare code against the
spec's words) -/

/-- Following the spec's words (4.5 step 1): for each fork chain compare
the block's parent hash against `hash(chain.tip)` computed independently
for that chain (a fresh hasher per comparison), then against the
canonical tip. -/
def specFindExtIdx (s : Node) (block : Block) : Except String Int :=
  match s.node_blockchains.findIdx? (fun bc =>
    match bc.blocks.getLast? with
    | some last => block.h == digest [last.core] && block.e > last.e
    | none => false) with
  | some i => .ok (i : Int)
  | none =>
    match s.canonical_blockchain.blocks.getLast? with
    | none => .error "called Option unwrap on a None value"
    | some last =>
      if block.h == digest [last.core] && block.e > last.e then .ok (-1)
      else .error "Proposed block does not extend any known chains."

/-- Reference recursion equivalent to the `find_longest_notarized_chain`
loop: the first fork chain that is notarized and longer than the running
threshold, preferring later chains only when strictly longer. -/
def specPick : List Blockchain → Nat → Option Blockchain
  | [], _ => none
  | c :: rest, len =>
    if c.isNotarized && c.blocks.length > len then
      some ((specPick rest c.blocks.length).getD c)
    else
      specPick rest len

/-- All blocks of all chains held by the node (canonical and forks)
satisfy the predicate `p`. -/
def nodeAll (p : Block → Bool) (s : Node) : Bool :=
  (s.canonical_blockchain :: s.node_blockchains).all
    (fun bc => bc.blocks.all p)

/-- Property P5 of the spec as a decidable state predicate: every block of
every chain held by the node that has strictly more than
`2 * nodes_count / 3` votes is notarized. -/
def quorumInv (s : Node) (n : Nat) : Bool :=
  nodeAll (fun b => b.votes.length ≤ 2 * n / 3 || b.notarized) s

/-! ## Concrete fixture states (used by witnesses and counterexamples) -/

/-- A genesis block, notarized and finalized; `h = 0` stands for the
sentinel parent hash. -/
def exG : Block := .mk 0 0 [] (.mk [] true true)

/-- A notarized block of epoch 1 extending the genesis block. -/
def exA : Block := .mk (digest [exG.core]) 1 [] (.mk [] true false)

/-- A notarized block of epoch 2 extending `exA`. -/
def exB : Block := .mk (digest [exA.core]) 2 [] (.mk [] true false)

/-- A notarized block of epoch 3 extending `exB`. -/
def exC : Block := .mk (digest [exB.core]) 3 [] (.mk [] true false)

/-- A fresh (unvoted) block of epoch 1 extending the genesis block. -/
def exP : Block := Block.new (digest [exG.core]) 1 []

/-- A node holding only the genesis chain. -/
def exNode0 : Node := ⟨0, 7, ⟨[exG]⟩, [], []⟩

/-- A node holding the genesis chain and one fork chain `[exA]`. -/
def exNode1 : Node := ⟨0, 7, ⟨[exG]⟩, [⟨[exA]⟩], []⟩

/-- A node with one fully notarized three-block fork and two fork chains
whose roots extend nothing (their parent hashes match no digest). -/
def exNode4 : Node :=
  ⟨0, 7, ⟨[exG]⟩, [⟨[exA, exB, exC]⟩, ⟨[Block.new 999 0 []]⟩,
    ⟨[Block.new 998 0 []]⟩], []⟩

/-- A notarized block unrelated to the other fixtures. -/
def exX : Block := .mk 500 5 [] (.mk [] true false)

/-- A node whose canonical chain (three blocks) is strictly longer than
its single notarized fork chain `[exX]`. -/
def exNode5 : Node := ⟨0, 7, ⟨[exG, exA, exB]⟩, [⟨[exX]⟩], []⟩

/-- A node whose canonical chain contains a block carrying transaction
"a", with "a" still in the unconfirmed pool and no fork chains. -/
def exNode6 : Node :=
  ⟨0, 7, ⟨[exG, Block.mk (digest [exG.core]) 1 ["a"] (.mk [] true true)]⟩,
    [], ["a"]⟩

/-- A node whose single fork chain carries three notarized blocks. -/
def exNodeF : Node := ⟨0, 7, ⟨[exG]⟩, [⟨[exA, exB, exC]⟩], []⟩

/-- A vote by node `k` for the block `exP`, with a valid signature. -/
def exVoteP (k : Nat) : Vote := Vote.mk (sign k (signature_encode exP)) exP k

/-- A node holding the genesis chain and a fork chain containing `exP`. -/
def exNodeV : Node := ⟨0, 7, ⟨[exG]⟩, [⟨[exP]⟩], []⟩

/-- `exNodeV` after one vote by node 1 has been recorded on `exP`. -/
def exNodeV1 : Node :=
  ⟨0, 7, ⟨[exG]⟩, [⟨[exP.setVotes [exVoteP 1]]⟩], []⟩

/-! ## Helper lemmas on lists -/

theorem sl_mem_set (l : List α) (i : Nat) (a x : α)
    (h : x ∈ l.set i a) : x = a ∨ x ∈ l := by
  induction l generalizing i with
  | nil => simp [List.set] at h
  | cons y t ih =>
    cases i with
    | zero =>
      simp only [List.set, List.mem_cons] at h
      rcases h with h | h
      · exact Or.inl h
      · exact Or.inr (List.mem_cons_of_mem _ h)
    | succ j =>
      simp only [List.set, List.mem_cons] at h
      rcases h with h | h
      · exact Or.inr (h ▸ List.mem_cons_self _ _)
      · rcases ih j h with h' | h'
        · exact Or.inl h'
        · exact Or.inr (List.mem_cons_of_mem _ h')

theorem sl_mem_eraseIdx (l : List α) (i : Nat) (x : α)
    (h : x ∈ l.eraseIdx i) : x ∈ l := by
  induction l generalizing i with
  | nil => simp [List.eraseIdx] at h
  | cons y t ih =>
    cases i with
    | zero =>
      simp only [List.eraseIdx] at h
      exact List.mem_cons_of_mem _ h
    | succ j =>
      simp only [List.eraseIdx, List.mem_cons] at h
      rcases h with h | h
      · exact h ▸ List.mem_cons_self _ _
      · exact List.mem_cons_of_mem _ (ih j h)

theorem sl_set_get_eq (l : List α) (i : Nat) (a : α)
    (h : l.get? i = some a) : l.set i a = l := by
  induction l generalizing i with
  | nil => simp [List.set]
  | cons y t ih =>
    cases i with
    | zero =>
      simp only [List.get?] at h
      cases h
      simp [List.set]
    | succ j =>
      simp only [List.get?] at h
      simp [List.set, ih j h]

theorem sl_get_set_self (l : List α) (i : Nat) (a : α)
    (h : i < l.length) : (l.set i a).get? i = some a := by
  induction l generalizing i with
  | nil => simp at h
  | cons y t ih =>
    cases i with
    | zero => simp [List.set]
    | succ j =>
      simp only [List.length_cons, Nat.succ_lt_succ_iff] at h
      simp only [List.set, List.get?]
      exact ih j h

/-- `encList` digests of lists of different lengths are different. -/
theorem encList_len_eq (f : α → Nat) :
    ∀ l1 l2 : List α, encList f l1 = encList f l2 → l1.length = l2.length := by
  intro l1
  induction l1 with
  | nil =>
    intro l2 h
    cases l2 with
    | nil => rfl
    | cons b t => simp [encList] at h
  | cons a t ih =>
    intro l2 h
    cases l2 with
    | nil => simp [encList] at h
    | cons b t2 =>
      simp only [encList, Nat.add_right_cancel_iff] at h
      have h2 := congrArg Nat.unpair h
      simp only [Nat.unpair_pair, Prod.mk.injEq] at h2
      simp [List.length_cons, ih t2 h2.2]

theorem digest_len_ne (x y z : BlockCore) : digest [y, z] ≠ digest [x] := by
  intro h
  have := encList_len_eq encCore [y, z] [x] h
  simp at this

theorem removeFirstPos_eq_erase (l : List String) (t : String) :
    removeFirstPos l t = l.erase t := by
  induction l with
  | nil => rfl
  | cons x xs ih =>
    rw [List.erase_cons]
    simp only [removeFirstPos]
    split
    · next hx => simp [hx]
    · next hx => simp [hx, ih]

theorem foldl_erase_sublist (ts : List String) :
    ∀ pool : List String,
      (ts.foldl (fun acc t => acc.erase t) pool).Sublist pool := by
  induction ts with
  | nil => intro pool; exact List.Sublist.refl pool
  | cons t ts ih =>
    intro pool
    exact (ih (pool.erase t)).trans (List.erase_sublist t pool)

/-! ## Claim theorems -/

/-- C10: for every `nodes_count ≥ 1` the epoch leader is strictly below
`nodes_count` (so `check_if_epoch_leader` is well defined for any positive
node count), while `get_epoch_leader`, `check_if_epoch_leader` and
`receive_proposed_block` with `nodes_count = 0` all panic on the modulo by
zero before any protocol check runs. -/
theorem get_epoch_leader_bounds (s : Node) (pk : Nat) (pv : Vote)
    (now n : Nat) :
    (1 ≤ n → ∃ L, get_epoch_leader now n = .ok L ∧ L < n ∧
      check_if_epoch_leader s now n = .ok (s.id == L)) ∧
    get_epoch_leader now 0 =
      .error "attempt to calculate the remainder with a divisor of zero" ∧
    check_if_epoch_leader s now 0 =
      .error "attempt to calculate the remainder with a divisor of zero" ∧
    receive_proposed_block s pk pv 0 now =
      .error "attempt to calculate the remainder with a divisor of zero" := by
  refine ⟨?_, rfl, rfl, rfl⟩
  intro h
  have hn : n ≠ 0 := by omega
  refine ⟨leaderHash (get_current_epoch now) % n, ?_, ?_, ?_⟩
  · simp [get_epoch_leader, hn]
  · exact Nat.mod_lt _ (by omega)
  · simp [check_if_epoch_leader, get_epoch_leader, hn, Except.map]

/-- C10 witness: at `nodes_count = 3` the leader is below 3. -/
theorem get_epoch_leader_bounds_witness :
    1 ≤ 3 ∧ (∃ L, get_epoch_leader 0 3 = .ok L ∧ L < 3 ∧
      check_if_epoch_leader exNode0 0 3 = .ok (exNode0.id == L)) :=
  ⟨by decide, (get_epoch_leader_bounds exNode0 0 (exVoteP 0) 0 3).1 (by decide)⟩

/-- C7: `receive_proposed_block` fails fatally when the proposer id is not
the epoch leader, or when the proposal signature does not verify;
`receive_vote` fails fatally when the vote signature does not verify or
when the voted block is not found by `find_block`; in each case the call
aborts without producing a post-state. -/
theorem reception_checks_are_fatal (s : Node) (pk : Nat) (pv : Vote)
    (n now L : Nat) (npk nc : Nat) (v : Vote) :
    (get_epoch_leader now n = .ok L → L ≠ pv.id →
      receive_proposed_block s pk pv n now =
        .error "assertion failed: proposer is not the epoch leader") ∧
    (get_epoch_leader now n = .ok L → L = pv.id →
      verify_sig pk (signature_encode pv.block) pv.vote = false →
      receive_proposed_block s pk pv n now =
        .error "assertion failed: proposal signature verification") ∧
    (verify_sig npk (signature_encode v.block) v.vote = false →
      receive_vote s npk v nc =
        .error "assertion failed: vote signature verification") ∧
    (verify_sig npk (signature_encode v.block) v.vote = true →
      find_block s v.block = none →
      receive_vote s npk v nc = .error "Received vote for unknown block.") := by
  refine ⟨?_, ?_, ?_, ?_⟩
  · intro hL hne
    simp [receive_proposed_block, hL, bne_iff_ne, hne]
  · intro hL heq hv
    simp [receive_proposed_block, hL, heq, hv]
  · intro hv
    simp [receive_vote, hv]
  · intro hv hfb
    simp [receive_vote, hv, hfb]

/-- C7 witness: a proposal from a non-leader is rejected, and a vote for
an unknown block is rejected. -/
theorem reception_checks_are_fatal_witness :
    (get_epoch_leader 0 3 = .ok 0 ∧ (0 : Nat) ≠ (exVoteP 1).id ∧
      receive_proposed_block exNode0 7 (exVoteP 1) 3 0 =
        .error "assertion failed: proposer is not the epoch leader") ∧
    (verify_sig 0 (signature_encode (exVoteP 0).block) (exVoteP 0).vote = true ∧
      find_block exNode0 (exVoteP 0).block = none ∧
      receive_vote exNode0 0 (exVoteP 0) 3 =
        .error "Received vote for unknown block.") :=
  ⟨⟨rfl, by decide,
    (reception_checks_are_fatal exNode0 7 (exVoteP 1) 3 0 0 0 3
      (exVoteP 1)).1 rfl (by decide)⟩,
   ⟨by decide, rfl,
    (reception_checks_are_fatal exNode0 7 (exVoteP 1) 3 0 0 0 3
      (exVoteP 0)).2.2.2 (by decide) rfl⟩⟩

/-- C3 (code bug): `find_extended_blockchain_index` reuses one hasher
across all comparisons, so with one fork chain present a block that
genuinely extends the canonical tip (its parent hash is the digest of the
canonical tip alone, with a larger epoch) is compared against the
accumulated digest and fatally rejected, where the per-chain-tip rule of
the spec returns the sentinel `-1`. -/
theorem find_extended_shared_hasher_bug :
    find_extended_blockchain_index exNode1 exP =
      .error "Proposed block does not extend any known chains." ∧
    specFindExtIdx exNode1 exP = .ok (-1) ∧
    exP.h = digest [exG.core] ∧ exG.e < exP.e ∧
    exNode1.canonical_blockchain.blocks.getLast? = some exG :=
  ⟨rfl, rfl, rfl, by decide, rfl⟩

/-- C4 (code bug): after moving the finalized prefix, the pruning loop of
`check_blockchain_finalization` removes the collected indices in ascending
order with `Vec::remove`, which shifts the remaining indices; with two
chains to drop (indices 1 and 2 out of three) the second removal is out of
bounds and the call panics instead of dropping exactly the failing
chains. -/
theorem finalization_prune_remove_loop_bug :
    check_blockchain_finalization exNode4 0 =
      .error "removal index out of bounds" ∧
    (moveBlocks exNode4 0 [exA, exB, exC] 3).canonical_blockchain.blocks.getLast?
      = some (exB.setFinalized true) ∧
    collectDropped (digest [(exB.setFinalized true).core])
      (exB.setFinalized true).e
      (moveBlocks exNode4 0 [exA, exB, exC] 3).node_blockchains 0 =
      .ok [1, 2] :=
  ⟨rfl, rfl, rfl⟩

/-! ## Characterization of the longest-notarized-chain loop -/

theorem flncLoop_eq_specPick (chains : List Blockchain) :
    ∀ best len, flncLoop best len chains = (specPick chains len).getD best := by
  induction chains with
  | nil => intro best len; rfl
  | cons c rest ih =>
    intro best len
    simp only [flncLoop, specPick]
    by_cases hc : (c.isNotarized && decide (c.blocks.length > len)) = true
    · simp [hc, ih]
    · simp [hc, ih]

theorem specPick_mem (chains : List Blockchain) :
    ∀ len R, specPick chains len = some R →
      R ∈ chains ∧ R.isNotarized = true ∧ len < R.blocks.length := by
  induction chains with
  | nil => intro len R h; simp [specPick] at h
  | cons c rest ih =>
    intro len R h
    simp only [specPick] at h
    split at h
    · next hc =>
      simp only [Bool.and_eq_true, decide_eq_true_eq] at hc
      cases h
      cases hspec : specPick rest c.blocks.length with
      | none =>
        simp only [hspec, Option.getD_none]
        exact ⟨List.mem_cons_self _ _, hc.1, hc.2⟩
      | some d =>
        have hd := ih c.blocks.length d hspec
        simp only [hspec, Option.getD_some]
        exact ⟨List.mem_cons_of_mem _ hd.1, hd.2.1,
          Nat.lt_trans hc.2 hd.2.2⟩
    · next hc =>
      have hd := ih len R h
      exact ⟨List.mem_cons_of_mem _ hd.1, hd.2.1, hd.2.2⟩

theorem specPick_none_of (chains : List Blockchain) :
    ∀ len, (∀ c ∈ chains, c.isNotarized = true → c.blocks.length ≤ len) →
      specPick chains len = none := by
  induction chains with
  | nil => intro len _; rfl
  | cons c rest ih =>
    intro len hall
    simp only [specPick]
    have hc : (c.isNotarized && decide (c.blocks.length > len)) = false := by
      by_cases hn : c.isNotarized = true
      · have := hall c (List.mem_cons_self _ _) hn
        simp [hn, Nat.not_lt.mpr this]
      · simp [Bool.eq_false_iff.mpr hn]
    rw [hc]
    simp only [Bool.false_eq_true, if_false]
    exact ih len (fun d hd => hall d (List.mem_cons_of_mem _ hd))

theorem specPick_none_inv (chains : List Blockchain) :
    ∀ len, specPick chains len = none →
      ∀ c ∈ chains, c.isNotarized = true → c.blocks.length ≤ len := by
  induction chains with
  | nil => intro len _ c hc; simp at hc
  | cons c rest ih =>
    intro len h d hd hn
    simp only [specPick] at h
    split at h
    · exact absurd h (by simp)
    · next hc =>
      rcases List.mem_cons.mp hd with hd | hd
      · subst hd
        simp only [hn, Bool.true_and, decide_eq_true_eq] at hc
        exact Nat.not_lt.mp (by simpa using hc)
      · exact ih len h d hd hn

theorem specPick_max (chains : List Blockchain) :
    ∀ len R, specPick chains len = some R →
      ∀ c ∈ chains, c.isNotarized = true →
        c.blocks.length ≤ R.blocks.length := by
  induction chains with
  | nil => intro len R h; simp [specPick] at h
  | cons c rest ih =>
    intro len R h d hd hn
    simp only [specPick] at h
    split at h
    · next hc =>
      simp only [Bool.and_eq_true, decide_eq_true_eq] at hc
      cases h
      cases hspec : specPick rest c.blocks.length with
      | none =>
        simp only [hspec, Option.getD_none]
        rcases List.mem_cons.mp hd with hd | hd
        · exact hd ▸ Nat.le_refl _
        · exact specPick_none_inv rest c.blocks.length hspec d hd hn
      | some e =>
        simp only [hspec, Option.getD_some]
        rcases List.mem_cons.mp hd with hd | hd
        · exact hd ▸ Nat.le_of_lt (specPick_mem rest c.blocks.length e hspec).2.2
        · exact ih c.blocks.length e hspec d hd hn
    · next hc =>
      rcases List.mem_cons.mp hd with hd | hd
      · subst hd
        simp only [hn, Bool.true_and] at hc
        have hlen : d.blocks.length ≤ len := Nat.not_lt.mp (by simpa using hc)
        exact Nat.le_of_lt (Nat.lt_of_le_of_lt hlen (specPick_mem rest len R h).2.2)
      · exact ih len R h d hd hn

theorem specPick_first (chains : List Blockchain) :
    ∀ len R, specPick chains len = some R →
      ∃ i, chains.get? i = some R ∧ ∀ j, j < i → ∀ c, chains.get? j = some c →
        c.isNotarized = true → c.blocks.length < R.blocks.length := by
  induction chains with
  | nil => intro len R h; simp [specPick] at h
  | cons c rest ih =>
    intro len R h
    simp only [specPick] at h
    split at h
    · next hc =>
      cases h
      cases hspec : specPick rest c.blocks.length with
      | none =>
        refine ⟨0, by simp [hspec], ?_⟩
        intro j hj; omega
      | some d =>
        rcases ih c.blocks.length d hspec with ⟨i, hi, hprev⟩
        refine ⟨i + 1, by simpa [hspec] using hi, ?_⟩
        intro j hj e he hne
        cases j with
        | zero =>
          simp only [List.get?] at he
          have hce := Option.some.inj he
          subst hce
          simpa [hspec] using (specPick_mem rest c.blocks.length d hspec).2.2
        | succ j' =>
          simp only [List.get?] at he
          simpa [hspec] using hprev j' (by omega) e he hne
    · next hc =>
      rcases ih len R h with ⟨i, hi, hprev⟩
      refine ⟨i + 1, by simpa using hi, ?_⟩
      intro j hj e he hne
      cases j with
      | zero =>
        simp only [List.get?] at he
        have hce := Option.some.inj he
        subst hce
        simp only [hne, Bool.true_and] at hc
        have hlen : c.blocks.length ≤ len := Nat.not_lt.mp (by simpa using hc)
        exact Nat.lt_of_le_of_lt hlen (specPick_mem rest len R h).2.2
      | succ j' =>
        simp only [List.get?] at he
        exact hprev j' (by omega) e he hne

/-- C5 counterexample: a canonical chain of three blocks is strictly
longer than the single notarized fork chain `[exX]` (length 1), yet
`propose_block` builds its parent hash from the fork tip `exX`, not from
the canonical tip `exB`, refuting "longest chain among canonical and
forks". -/
theorem flnc_ignores_canonical_length_cex :
    exNode5.canonical_blockchain.blocks.length = 3 ∧
    exNode5.node_blockchains.all
      (fun bc => bc.isNotarized && decide (bc.blocks.length < 3)) = true ∧
    exNode5.canonical_blockchain.blocks.getLast? = some exB ∧
    (∃ v, propose_block exNode5 0 = .ok (exNode5.keypair, v) ∧
      v.block.h = digest [exX.core]) ∧
    digest [exX.core] ≠ digest [exB.core] :=
  ⟨rfl, rfl, rfl, ⟨_, rfl, rfl⟩, by decide⟩

/-- C5 amended: `find_longest_notarized_chain` ignores the canonical
chain's length entirely (the running length starts at 0): it returns the
canonical chain only when no fork chain is fully notarized and nonempty;
otherwise it returns a fully notarized fork chain of maximal length among
notarized fork chains, the first one encountered, and `propose_block`
derives its parent hash from that chain's tip. -/
theorem find_longest_notarized_chain_prefers_forks (s : Node) (now : Nat) :
    ((∀ c ∈ s.node_blockchains, c.isNotarized = true → c.blocks.length = 0) →
      find_longest_notarized_chain s = s.canonical_blockchain) ∧
    (∀ c0 ∈ s.node_blockchains, c0.isNotarized = true →
      0 < c0.blocks.length →
      find_longest_notarized_chain s ∈ s.node_blockchains ∧
      (find_longest_notarized_chain s).isNotarized = true ∧
      0 < (find_longest_notarized_chain s).blocks.length ∧
      (∀ c ∈ s.node_blockchains, c.isNotarized = true →
        c.blocks.length ≤ (find_longest_notarized_chain s).blocks.length) ∧
      (∃ i, s.node_blockchains.get? i = some (find_longest_notarized_chain s) ∧
        ∀ j, j < i → ∀ c, s.node_blockchains.get? j = some c →
          c.isNotarized = true →
          c.blocks.length < (find_longest_notarized_chain s).blocks.length)) ∧
    (∀ last, (find_longest_notarized_chain s).blocks.getLast? = some last →
      ∃ v, propose_block s now = .ok (s.keypair, v) ∧
        v.block.h = digest [last.core] ∧
        v.block.e = get_current_epoch now ∧
        v.block.txs = get_unproposed_transactions s) := by
  have heq : find_longest_notarized_chain s =
      (specPick s.node_blockchains 0).getD s.canonical_blockchain :=
    flncLoop_eq_specPick s.node_blockchains s.canonical_blockchain 0
  refine ⟨?_, ?_, ?_⟩
  · intro hall
    have hnone : specPick s.node_blockchains 0 = none :=
      specPick_none_of s.node_blockchains 0
        (fun c hc hn => Nat.le_of_eq (hall c hc hn))
    rw [heq, hnone]
    rfl
  · intro c0 hc0 hn0 hlen0
    cases hsp : specPick s.node_blockchains 0 with
    | none =>
      exact absurd (specPick_none_inv s.node_blockchains 0 hsp c0 hc0 hn0)
        (by omega)
    | some R =>
      have hR : find_longest_notarized_chain s = R := by
        rw [heq, hsp]; rfl
      have hmem := specPick_mem s.node_blockchains 0 R hsp
      rw [hR]
      exact ⟨hmem.1, hmem.2.1, hmem.2.2,
        specPick_max s.node_blockchains 0 R hsp,
        specPick_first s.node_blockchains 0 R hsp⟩
  · intro last hlast
    refine ⟨Vote.mk (sign s.keypair (signature_encode
        (Block.new (digest [last.core]) (get_current_epoch now)
          (get_unproposed_transactions s))))
      (Block.new (digest [last.core]) (get_current_epoch now)
        (get_unproposed_transactions s)) s.id, ?_, rfl, rfl, rfl⟩
    simp [propose_block, hlast]

/-- C5 witness: on `exNode5` the notarized fork `[exX]` is returned and
the proposal extends `exX`. -/
theorem find_longest_notarized_chain_prefers_forks_witness :
    (Blockchain.mk [exX] ∈ exNode5.node_blockchains ∧
      (Blockchain.mk [exX]).isNotarized = true ∧
      0 < (Blockchain.mk [exX]).blocks.length) ∧
    (find_longest_notarized_chain exNode5 ∈ exNode5.node_blockchains ∧
      (find_longest_notarized_chain exNode5).isNotarized = true ∧
      0 < (find_longest_notarized_chain exNode5).blocks.length ∧
      (∀ c ∈ exNode5.node_blockchains, c.isNotarized = true →
        c.blocks.length ≤ (find_longest_notarized_chain exNode5).blocks.length) ∧
      (∃ i, exNode5.node_blockchains.get? i =
          some (find_longest_notarized_chain exNode5) ∧
        ∀ j, j < i → ∀ c, exNode5.node_blockchains.get? j = some c →
          c.isNotarized = true →
          c.blocks.length <
            (find_longest_notarized_chain exNode5).blocks.length)) ∧
    (∃ v, propose_block exNode5 3 = .ok (exNode5.keypair, v) ∧
      v.block.h = digest [exX.core] ∧
      v.block.e = get_current_epoch 3 ∧
      v.block.txs = get_unproposed_transactions exNode5) :=
  ⟨⟨List.mem_singleton.mpr rfl, rfl, by decide⟩,
   (find_longest_notarized_chain_prefers_forks exNode5 3).2.1
     (Blockchain.mk [exX]) (List.mem_singleton.mpr rfl) rfl (by decide),
   (find_longest_notarized_chain_prefers_forks exNode5 3).2.2 exX rfl⟩

/-- C6 counterexample: the pool entry "a" also occurs in a block of the
canonical chain, yet `get_unproposed_transactions` returns it, refuting
"does not appear in any block of any chain held by the node, including
the canonical chain". -/
theorem get_unproposed_skips_canonical_cex :
    get_unproposed_transactions exNode6 = ["a"] ∧
    exNode6.canonical_blockchain.blocks.any
      (fun b => b.txs.contains "a") = true ∧
    exNode6.unconfirmed_transactions = ["a"] :=
  ⟨rfl, rfl, rfl⟩

/-- C6 amended: `get_unproposed_transactions` removes, for each occurrence
of a transaction in each block of each fork chain (in order), the first
matching pool entry; blocks of the canonical chain are not consulted, and
duplicate pool entries are removed once per matching occurrence.  The
result is a sublist of the pool (arrival order preserved). -/
theorem get_unproposed_transactions_erases_fork_txs (s : Node) :
    get_unproposed_transactions s =
      ((s.node_blockchains.map Blockchain.blocks).flatten.map
        Block.txs).flatten.foldl (fun acc t => acc.erase t)
        s.unconfirmed_transactions ∧
    (get_unproposed_transactions s).Sublist s.unconfirmed_transactions := by
  have h1 : get_unproposed_transactions s =
      ((s.node_blockchains.map Blockchain.blocks).flatten.map
        Block.txs).flatten.foldl (fun acc t => acc.erase t)
        s.unconfirmed_transactions := by
    simp only [get_unproposed_transactions, removeFirstPos_eq_erase,
      List.foldl_flatten, List.foldl_map]
  exact ⟨h1, h1 ▸ foldl_erase_sublist _ _⟩

/-- C8 counterexample: delivering the same proposal `exP` twice via
`vote_block`: the first call creates a fork chain and returns a vote, the
second call panics in `find_extended_blockchain_index` (it neither
abstains with unchanged chains nor returns an identical vote), refuting
"never aborts the node". -/
theorem vote_block_redelivery_cex :
    vote_block exNode0 exP =
      .ok ({ exNode0 with node_blockchains := [Blockchain.new exP] },
        some (Vote.mk (sign exNode0.keypair (signature_encode exP)) exP
          exNode0.id)) ∧
    vote_block { exNode0 with node_blockchains := [Blockchain.new exP] } exP =
      .error "Proposed block does not extend any known chains." :=
  ⟨rfl, rfl⟩

/-- C8 amended: when the node holds no fork chains and receives a proposal
extending the canonical tip, the first `vote_block` call creates the fork
chain `[B]` and returns a signed vote, and the second delivery of the same
proposal panics in `find_extended_blockchain_index` (the accumulated
digests match no chain), aborting the node. -/
theorem vote_block_redelivery_panics (s : Node) (t B : Block)
    (hforks : s.node_blockchains = [])
    (htip : s.canonical_blockchain.blocks.getLast? = some t)
    (hh : B.h = digest [t.core]) (he : t.e < B.e) :
    vote_block s B =
      .ok ({ s with node_blockchains := [Blockchain.new B] },
        some (Vote.mk (sign s.keypair (signature_encode B)) B s.id)) ∧
    vote_block { s with node_blockchains := [Blockchain.new B] } B =
      .error "Proposed block does not extend any known chains." := by
  have hne : ¬ B.e ≤ t.e := Nat.not_le.mpr he
  constructor
  · have h1 : find_extended_blockchain_index s B = .ok (-1) := by
      simp [find_extended_blockchain_index, hforks, feLoop, htip, hh, hne]
    simp [vote_block, h1, hforks, extends_notarized_blockchain,
      Blockchain.new]
  · have h2 : B.h ≠ digest [B.core, t.core] := by
      rw [hh]
      exact (digest_len_ne t.core B.core t.core).symm
    have h1 : find_extended_blockchain_index
        { s with node_blockchains := [Blockchain.new B] } B =
        .error "Proposed block does not extend any known chains." := by
      simp [find_extended_blockchain_index, feLoop, Blockchain.new, htip,
        bne_iff_ne, h2]
    simp [vote_block, h1]

/-- C8 witness: a fresh node with a two-epoch gap; first delivery votes,
second delivery panics. -/
theorem vote_block_redelivery_panics_witness :
    (⟨3, 9, ⟨[exG]⟩, [], ["t"]⟩ : Node).node_blockchains = [] ∧
    (⟨3, 9, ⟨[exG]⟩, [], ["t"]⟩ : Node).canonical_blockchain.blocks.getLast?
      = some exG ∧
    (Block.new (digest [exG.core]) 2 []).h = digest [exG.core] ∧
    exG.e < (Block.new (digest [exG.core]) 2 []).e ∧
    (vote_block (⟨3, 9, ⟨[exG]⟩, [], ["t"]⟩ : Node)
        (Block.new (digest [exG.core]) 2 []) =
      .ok ({ (⟨3, 9, ⟨[exG]⟩, [], ["t"]⟩ : Node) with node_blockchains :=
          [Blockchain.new (Block.new (digest [exG.core]) 2 [])] },
        some (Vote.mk (sign 9 (signature_encode
            (Block.new (digest [exG.core]) 2 [])))
          (Block.new (digest [exG.core]) 2 []) 3)) ∧
      vote_block { (⟨3, 9, ⟨[exG]⟩, [], ["t"]⟩ : Node) with node_blockchains :=
          [Blockchain.new (Block.new (digest [exG.core]) 2 [])] }
        (Block.new (digest [exG.core]) 2 []) =
      .error "Proposed block does not extend any known chains.") :=
  ⟨rfl, rfl, rfl, by decide,
   vote_block_redelivery_panics (⟨3, 9, ⟨[exG]⟩, [], ["t"]⟩ : Node) exG
     (Block.new (digest [exG.core]) 2 []) rfl rfl rfl (by decide)⟩

/-! ## Soundness of `find_block` and write-back lemmas -/

theorem Block.setVotes_self (b : Block) : b.setVotes b.votes = b := by
  cases b with
  | mk h e t m => cases m with
    | mk v n f => rfl

theorem fbLoop_sound (vb : Block) :
    ∀ (chains : List Blockchain) (i : Nat) (b : Block) (ci : Int) (pos : Nat),
      fbLoop vb chains i = some (b, ci, pos) →
      ∃ k bc, ci = ((i + k : Nat) : Int) ∧ chains.get? k = some bc ∧
        bc.blocks.get? pos = some b := by
  intro chains
  induction chains with
  | nil => intro i b ci pos h; simp [fbLoop] at h
  | cons bc rest ih =>
    intro i b ci pos h
    simp only [fbLoop] at h
    split at h
    · next p hr =>
      split at h
      · next bb hg =>
        simp only [Option.some.injEq, Prod.mk.injEq] at h
        obtain ⟨hb, hci, hpos⟩ := h
        refine ⟨0, bc, ?_, rfl, ?_⟩
        · simp [← hci]
        · rw [hpos, hb] at hg
          exact hg
      · exact absurd h (by simp)
    · next hr =>
      obtain ⟨k, bc', hci, hk, hb⟩ := ih (i + 1) b ci pos h
      refine ⟨k + 1, bc', ?_, hk, hb⟩
      rw [hci]
      congr 1
      omega

theorem find_block_sound (s : Node) (vb b : Block) (ci : Int) (pos : Nat)
    (h : find_block s vb = some (b, ci, pos)) :
    blockAt s ci pos = some b := by
  unfold find_block at h
  split at h
  · next r hf =>
    have hr : r = (b, ci, pos) := Option.some.inj h
    subst hr
    obtain ⟨k, bc, hci, hk, hb⟩ :=
      fbLoop_sound vb s.node_blockchains 0 b ci pos hf
    have hci' : ci = (k : Int) := by simpa using hci
    subst hci'
    have h1 : (((k : Int)) == -1) = false := by
      have : ¬ ((k : Int) = -1) := by omega
      exact beq_eq_false_iff_ne.mpr this
    have h2 : ¬ ((k : Int) < 0) := by omega
    simp only [blockAt, chainBlocksAt, h1, Bool.false_eq_true, if_false,
      h2, Int.toNat_natCast]
    rw [hk]
    simpa using hb
  · next hf =>
    split at h
    · next p hr =>
      split at h
      · next bb hg =>
        simp only [Option.some.injEq, Prod.mk.injEq] at h
        obtain ⟨hb, hci, hpos⟩ := h
        subst hci
        simp only [blockAt, chainBlocksAt]
        norm_num
        rw [hpos, hb] at hg
        simpa using hg
      · exact absurd h (by simp)
    · exact absurd h (by simp)

theorem setBlockAt_same (s : Node) (ci : Int) (pos : Nat) (b : Block)
    (h : blockAt s ci pos = some b) : setBlockAt s ci pos b = s := by
  unfold blockAt chainBlocksAt at h
  unfold setBlockAt
  by_cases hci : (ci == -1) = true
  · simp only [hci, if_true] at h ⊢
    simp only [Option.some_bind] at h
    rw [sl_set_get_eq _ _ _ h]
  · simp only [hci, Bool.false_eq_true, if_false] at h ⊢
    by_cases hneg : ci < 0
    · simp [hneg] at h
    · simp only [hneg, if_false] at h
      split
      · next bc hg =>
        rw [hg] at h
        have hbc : (⟨bc.blocks⟩ : Blockchain) = bc := rfl
        rw [sl_set_get_eq _ _ _ h, hbc, sl_set_get_eq _ _ _ hg]
      · rfl

/-- C9: re-delivering a vote that is already recorded on the located block
is a no-op: given property P5 at that block (quorum implies notarized),
`receive_vote` returns the state unchanged - no vote appended, no flag
changed, no chain or pool change. -/
theorem receive_vote_redelivery_noop (s : Node) (pk : Nat) (vote : Vote)
    (n : Nat) (b : Block) (ci : Int) (pos : Nat)
    (hv : verify_sig pk (signature_encode vote.block) vote.vote = true)
    (hf : find_block s vote.block = some (b, ci, pos))
    (hmem : containsVote b.votes vote = true)
    (hq : b.votes.length > 2 * n / 3 → b.notarized = true) :
    receive_vote s pk vote n = .ok s := by
  have hset : setBlockAt s ci pos b = s :=
    setBlockAt_same s ci pos b (find_block_sound s vote.block b ci pos hf)
  have hcond : (!b.notarized && decide (b.votes.length > 2 * n / 3)) = false := by
    by_cases hb : b.notarized = true
    · simp [hb]
    · have hlen : ¬ (b.votes.length > 2 * n / 3) := fun hgt => hb (hq hgt)
      simp [hlen]
  simp only [receive_vote, hv, Bool.not_true, Bool.false_eq_true, if_false,
    hf, hmem, if_true, Block.setVotes_self, hcond, hset]

/-- C9 witness: one vote recorded on the fork block, re-delivered. -/
theorem receive_vote_redelivery_noop_witness :
    verify_sig 1 (signature_encode (exVoteP 1).block) (exVoteP 1).vote = true ∧
    find_block exNodeV1 (exVoteP 1).block =
      some (exP.setVotes [exVoteP 1], 0, 0) ∧
    containsVote (exP.setVotes [exVoteP 1]).votes (exVoteP 1) = true ∧
    receive_vote exNodeV1 1 (exVoteP 1) 3 = .ok exNodeV1 :=
  ⟨by decide, rfl, by decide,
   receive_vote_redelivery_noop exNodeV1 1 (exVoteP 1) 3
     (exP.setVotes [exVoteP 1]) 0 0 (by decide) rfl (by decide) (by decide)⟩

/-! ## Finalization: move/prune decomposition facts -/

theorem sl_get_lt (l : List α) (i : Nat) (a : α)
    (h : l.get? i = some a) : i < l.length := by
  induction l generalizing i with
  | nil => simp [List.get?] at h
  | cons x t ih =>
    cases i with
    | zero => simp
    | succ j =>
      simp only [List.get?] at h
      simpa using ih j h

theorem prunePhase_preserves (s s' : Node) (h : prunePhase s = .ok s') :
    s'.canonical_blockchain = s.canonical_blockchain ∧
    s'.unconfirmed_transactions = s.unconfirmed_transactions := by
  unfold prunePhase at h
  split at h
  · exact absurd h (by simp)
  · split at h
    · exact absurd h (by simp)
    · split at h
      · exact absurd h (by simp)
      · have := Except.ok.inj h
        subst this
        exact ⟨rfl, rfl⟩

/-- C1: on a chain `C` (canonical for index `-1`, else the addressed fork)
whose longest all-notarized prefix from the root has length `k`: if
`|C| ≤ 2` or `k ≤ 2` the call returns the state unchanged; otherwise the
call is the pruning step applied to the moved state, in which the first
`k - 1` blocks of `C`, marked finalized, have been appended in order to
the tail of the canonical chain and removed from `C` (for the canonical
chain itself the drain and append rotate the same vector), and pruning
never changes the canonical chain. -/
theorem check_blockchain_finalization_spec (s : Node) (ci : Int)
    (C : List Block) (k : Nat)
    (hC : chainBlocksAt s ci = some C)
    (hk : k = (C.takeWhile (fun b => b.notarized)).length) :
    (C.length ≤ 2 ∨ k ≤ 2 → check_blockchain_finalization s ci = .ok s) ∧
    (2 < C.length → 2 < k →
      check_blockchain_finalization s ci = prunePhase (moveBlocks s ci C k) ∧
      (moveBlocks s ci C k).canonical_blockchain.blocks =
        (if ci == -1 then C.drop (k - 1) else s.canonical_blockchain.blocks)
          ++ (C.take (k - 1)).map (fun b => b.setFinalized true) ∧
      chainBlocksAt (moveBlocks s ci C k) ci =
        some (if ci == -1 then
          C.drop (k - 1) ++ (C.take (k - 1)).map (fun b => b.setFinalized true)
        else C.drop (k - 1)) ∧
      (∀ s', prunePhase (moveBlocks s ci C k) = .ok s' →
        s'.canonical_blockchain = (moveBlocks s ci C k).canonical_blockchain)) := by
  have hcbf : check_blockchain_finalization s ci =
      (if C.length > 2 then
        (if (C.takeWhile (fun b => b.notarized)).length > 2 then
          prunePhase
            (moveBlocks s ci C ((C.takeWhile (fun b => b.notarized)).length))
        else .ok s)
      else .ok s) := by
    unfold check_blockchain_finalization
    rw [hC]
  constructor
  · intro hle
    rw [hk] at hle
    rw [hcbf]
    split_ifs with hlen hcons
    · omega
    · rfl
    · rfl
  · intro h1 h2
    refine ⟨?_, ?_, ?_, ?_⟩
    · rw [hcbf, ← hk, if_pos h1, if_pos h2]
    · unfold moveBlocks
      by_cases hci : (ci == -1) = true
      · simp [hci]
      · simp [hci]
    · unfold moveBlocks chainBlocksAt
      by_cases hci : (ci == -1) = true
      · simp [hci]
      · have hneg : ¬ ci < 0 := by
          unfold chainBlocksAt at hC
          by_cases hlt : ci < 0
          · rw [if_neg (by simpa using hci), if_pos hlt] at hC
            exact absurd hC (by simp)
          · exact hlt
        simp only [hci, Bool.false_eq_true, if_false, hneg]
        unfold chainBlocksAt at hC
        rw [if_neg (by simpa using hci), if_neg hneg] at hC
        cases hg : s.node_blockchains.get? ci.toNat with
        | none => rw [hg] at hC; exact absurd hC (by simp)
        | some bc =>
          rw [sl_get_set_self _ _ _ (sl_get_lt _ _ _ hg)]
          rfl
    · intro s' hp
      exact (prunePhase_preserves _ s' hp).1

/-- C1 witness: a three-block fully notarized fork chain with `k = 3`. -/
theorem check_blockchain_finalization_spec_witness :
    chainBlocksAt exNodeF 0 = some [exA, exB, exC] ∧
    (3 : Nat) = (([exA, exB, exC].takeWhile (fun b => b.notarized)).length) ∧
    2 < ([exA, exB, exC] : List Block).length ∧ 2 < 3 ∧
    check_blockchain_finalization exNodeF 0 =
      prunePhase (moveBlocks exNodeF 0 [exA, exB, exC] 3) ∧
    (moveBlocks exNodeF 0 [exA, exB, exC] 3).canonical_blockchain.blocks =
      (if (0 : Int) == -1 then ([exA, exB, exC] : List Block).drop 2
        else exNodeF.canonical_blockchain.blocks)
        ++ ([exA, exB, exC].take 2).map (fun b => b.setFinalized true) :=
  ⟨rfl, rfl, by decide, by decide,
   ((check_blockchain_finalization_spec exNodeF 0 [exA, exB, exC] 3
      rfl rfl).2 (by decide) (by decide)).1,
   ((check_blockchain_finalization_spec exNodeF 0 [exA, exB, exC] 3
      rfl rfl).2 (by decide) (by decide)).2.1⟩

/-! ## Preservation of block predicates by the state operations -/

theorem Block.votes_setVotes (b : Block) (v : List Vote) :
    (b.setVotes v).votes = v := by
  cases b with
  | mk h e t m => cases m with
    | mk vv n f => rfl

theorem Block.notarized_setVotes (b : Block) (v : List Vote) :
    (b.setVotes v).notarized = b.notarized := by
  cases b with
  | mk h e t m => cases m with
    | mk vv n f => rfl

theorem Block.notarized_setNotarized (b : Block) (x : Bool) :
    (b.setNotarized x).notarized = x := by
  cases b with
  | mk h e t m => cases m with
    | mk vv n f => rfl

theorem Block.votes_setNotarized (b : Block) (x : Bool) :
    (b.setNotarized x).votes = b.votes := by
  cases b with
  | mk h e t m => cases m with
    | mk vv n f => rfl

theorem Block.votes_setFinalized (b : Block) (x : Bool) :
    (b.setFinalized x).votes = b.votes := by
  cases b with
  | mk h e t m => cases m with
    | mk vv n f => rfl

theorem Block.notarized_setFinalized (b : Block) (x : Bool) :
    (b.setFinalized x).notarized = b.notarized := by
  cases b with
  | mk h e t m => cases m with
    | mk vv n f => rfl

theorem nodeAll_iff (p : Block → Bool) (s : Node) :
    nodeAll p s = true ↔
      (∀ blk ∈ s.canonical_blockchain.blocks, p blk = true) ∧
      (∀ bc ∈ s.node_blockchains, ∀ blk ∈ bc.blocks, p blk = true) := by
  simp [nodeAll, List.all_eq_true]

theorem setBlockAt_setBlockAt (s : Node) (ci : Int) (pos : Nat)
    (a b : Block) :
    setBlockAt (setBlockAt s ci pos a) ci pos b = setBlockAt s ci pos b := by
  unfold setBlockAt
  by_cases hci : (ci == -1) = true
  · simp [hci, List.set_set]
  · simp only [hci, Bool.false_eq_true, if_false]
    cases hg : s.node_blockchains.get? ci.toNat with
    | none =>
      have hg' : s.node_blockchains[ci.toNat]? = none := by
        rw [← List.get?_eq_getElem?]; exact hg
      simp [hg']
    | some bc =>
      have hlt := sl_get_lt _ _ _ hg
      have hg' : s.node_blockchains[ci.toNat]? = some bc := by
        rw [← List.get?_eq_getElem?]; exact hg
      have hset : ∀ (x : Blockchain),
          (s.node_blockchains.set ci.toNat x)[ci.toNat]? = some x := by
        intro x
        rw [← List.get?_eq_getElem?]
        exact sl_get_set_self _ _ _ hlt
      simp [hg', hset, List.set_set]

theorem nodeAll_setBlockAt (p : Block → Bool) (s : Node) (ci : Int)
    (pos : Nat) (b : Block) (hs : nodeAll p s = true) (hb : p b = true) :
    nodeAll p (setBlockAt s ci pos b) = true := by
  rw [nodeAll_iff] at hs ⊢
  obtain ⟨hcan, hforks⟩ := hs
  unfold setBlockAt
  by_cases hci : (ci == -1) = true
  · simp only [hci, if_true]
    refine ⟨?_, hforks⟩
    intro blk hblk
    rcases sl_mem_set _ _ _ _ hblk with h | h
    · exact h ▸ hb
    · exact hcan blk h
  · simp only [hci, Bool.false_eq_true, if_false]
    split
    · next bc hg =>
      refine ⟨hcan, ?_⟩
      intro bc' hbc' blk hblk
      rcases sl_mem_set _ _ _ _ hbc' with h | h
      · subst h
        rcases sl_mem_set _ _ _ _ hblk with h' | h'
        · exact h' ▸ hb
        · exact hforks bc (List.get?_mem hg) blk h'
      · exact hforks bc' h blk hblk
    · exact ⟨hcan, hforks⟩

theorem nodeAll_moveBlocks (p : Block → Bool) (s : Node) (ci : Int)
    (C : List Block) (k : Nat) (hC : chainBlocksAt s ci = some C)
    (hfin : ∀ blk, p (blk.setFinalized true) = p blk)
    (hs : nodeAll p s = true) : nodeAll p (moveBlocks s ci C k) = true := by
  rw [nodeAll_iff] at hs ⊢
  obtain ⟨hcan, hforks⟩ := hs
  have hCmem : ∀ blk ∈ C, p blk = true := by
    unfold chainBlocksAt at hC
    by_cases hci : (ci == -1) = true
    · rw [if_pos hci] at hC
      have := Option.some.inj hC
      exact this ▸ hcan
    · rw [if_neg (by simpa using hci)] at hC
      by_cases hneg : ci < 0
      · rw [if_pos hneg] at hC; exact absurd hC (by simp)
      · rw [if_neg hneg] at hC
        cases hg : s.node_blockchains.get? ci.toNat with
        | none => rw [hg] at hC; exact absurd hC (by simp)
        | some bc =>
          rw [hg] at hC
          have hbc := Option.some.inj hC
          exact hbc ▸ hforks bc (List.get?_mem hg)
  have hfinmem : ∀ blk ∈ (C.take (k - 1)).map (fun b => b.setFinalized true),
      p blk = true := by
    intro blk hblk
    rcases List.mem_map.mp hblk with ⟨a, ha, rfl⟩
    rw [hfin]
    exact hCmem a (List.mem_of_mem_take ha)
  unfold moveBlocks
  by_cases hci : (ci == -1) = true
  · simp only [hci, if_true]
    refine ⟨?_, hforks⟩
    intro blk hblk
    rcases List.mem_append.mp hblk with h | h
    · exact hCmem blk (List.mem_of_mem_drop h)
    · exact hfinmem blk h
  · simp only [hci, Bool.false_eq_true, if_false]
    constructor
    · intro blk hblk
      rcases List.mem_append.mp hblk with h | h
      · exact hcan blk h
      · exact hfinmem blk h
    · intro bc hbc blk hblk
      rcases sl_mem_set _ _ _ _ hbc with h | h
      · subst h
        exact hCmem blk (List.mem_of_mem_drop hblk)
      · exact hforks bc h blk hblk

theorem removeLoop_subset (idxs : List Nat) :
    ∀ (chains chains' : List Blockchain),
      removeLoop chains idxs = .ok chains' → ∀ bc ∈ chains', bc ∈ chains := by
  induction idxs with
  | nil =>
    intro chains chains' h bc hbc
    have := Except.ok.inj h
    exact this ▸ hbc
  | cons i rest ih =>
    intro chains chains' h bc hbc
    simp only [removeLoop] at h
    split at h
    · exact absurd h (by simp)
    · next c1 hrem =>
      unfold vecRemove at hrem
      split at hrem
      · have hc1 := Except.ok.inj hrem
        subst hc1
        exact sl_mem_eraseIdx _ _ _ (ih _ _ h bc hbc)
      · exact absurd hrem (by simp)

theorem nodeAll_prunePhase (p : Block → Bool) (s s' : Node)
    (h : prunePhase s = .ok s') (hs : nodeAll p s = true) :
    nodeAll p s' = true := by
  unfold prunePhase at h
  split at h
  · exact absurd h (by simp)
  · split at h
    · exact absurd h (by simp)
    · split at h
      · exact absurd h (by simp)
      · next chains' hrl =>
        have hs' := Except.ok.inj h
        subst hs'
        rw [nodeAll_iff] at hs ⊢
        obtain ⟨hcan, hforks⟩ := hs
        refine ⟨hcan, ?_⟩
        intro bc hbc blk hblk
        exact hforks bc (removeLoop_subset _ _ _ hrl bc hbc) blk hblk

theorem cbf_eq (s : Node) (ci : Int) (C : List Block)
    (hC : chainBlocksAt s ci = some C) :
    check_blockchain_finalization s ci =
      (if C.length > 2 then
        (if (C.takeWhile (fun b => b.notarized)).length > 2 then
          prunePhase
            (moveBlocks s ci C ((C.takeWhile (fun b => b.notarized)).length))
        else .ok s)
      else .ok s) := by
  unfold check_blockchain_finalization
  rw [hC]

theorem nodeAll_finalization (p : Block → Bool) (s : Node) (ci : Int)
    (s' : Node) (hfin : ∀ blk, p (blk.setFinalized true) = p blk)
    (h : check_blockchain_finalization s ci = .ok s')
    (hs : nodeAll p s = true) : nodeAll p s' = true := by
  cases hCc : chainBlocksAt s ci with
  | none =>
    unfold check_blockchain_finalization at h
    simp only [hCc] at h
    exact absurd h (by simp)
  | some C =>
    rw [cbf_eq s ci C hCc] at h
    split_ifs at h with h1 h2
    · exact nodeAll_prunePhase p _ s' h
        (nodeAll_moveBlocks p s ci C _ hCc hfin hs)
    · have := Except.ok.inj h
      exact this ▸ hs
    · have := Except.ok.inj h
      exact this ▸ hs

/-- C2: given a valid signature and a located block `b`, `receive_vote`
appends the vote unless an equal vote is present, notarizes exactly when
the block was not already notarized and the deduplicated vote count
exceeds `2 * nodes_count / 3` (for `nodes_count = 3`: at least 3 votes),
and preserves property P5 (every block over quorum is notarized) on every
successful return. -/
theorem receive_vote_quorum_notarization (s : Node) (pk : Nat) (vote : Vote)
    (n : Nat) (b : Block) (ci : Int) (pos : Nat) (votes' : List Vote)
    (hv : verify_sig pk (signature_encode vote.block) vote.vote = true)
    (hf : find_block s vote.block = some (b, ci, pos))
    (hvotes : votes' = if containsVote b.votes vote then b.votes
      else b.votes ++ [vote]) :
    (receive_vote s pk vote n =
      if !b.notarized && decide (votes'.length > 2 * n / 3) then
        check_blockchain_finalization
          (setBlockAt s ci pos ((b.setVotes votes').setNotarized true)) ci
      else .ok (setBlockAt s ci pos (b.setVotes votes'))) ∧
    ((!b.notarized && decide (votes'.length > 2 * n / 3)) = true ↔
      (b.notarized = false ∧ 2 * n / 3 < votes'.length)) ∧
    (n = 3 → ((!b.notarized && decide (votes'.length > 2 * n / 3)) = true ↔
      (b.notarized = false ∧ 3 ≤ votes'.length))) ∧
    (quorumInv s n = true → ∀ s', receive_vote s pk vote n = .ok s' →
      quorumInv s' n = true) := by
  subst hvotes
  have hrv : receive_vote s pk vote n =
      (if !b.notarized && decide ((if containsVote b.votes vote then b.votes
          else b.votes ++ [vote]).length > 2 * n / 3) then
        check_blockchain_finalization
          (setBlockAt s ci pos
            ((b.setVotes (if containsVote b.votes vote then b.votes
              else b.votes ++ [vote])).setNotarized true)) ci
      else .ok (setBlockAt s ci pos
        (b.setVotes (if containsVote b.votes vote then b.votes
          else b.votes ++ [vote])))) := by
    unfold receive_vote
    rw [hv, hf]
    simp only [Bool.not_true, Bool.false_eq_true, if_false,
      setBlockAt_setBlockAt]
  refine ⟨hrv, by simp [Bool.and_eq_true, Bool.not_eq_true'], ?_, ?_⟩
  · intro hn
    subst hn
    constructor
    · intro h
      simp only [Bool.and_eq_true, Bool.not_eq_true', decide_eq_true_eq] at h
      exact ⟨h.1, by omega⟩
    · intro h
      simp only [Bool.and_eq_true, Bool.not_eq_true', decide_eq_true_eq]
      exact ⟨h.1, by omega⟩
  · intro hq s' hs'
    rw [hrv] at hs'
    set votes' := (if containsVote b.votes vote then b.votes
      else b.votes ++ [vote]) with hv'
    have hfin : ∀ blk : Block,
        (fun blk => blk.votes.length ≤ 2 * n / 3 || blk.notarized)
          (blk.setFinalized true) =
        (fun blk => blk.votes.length ≤ 2 * n / 3 || blk.notarized) blk := by
      intro blk
      simp [Block.votes_setFinalized, Block.notarized_setFinalized]
    by_cases hcond : (!b.notarized && decide (votes'.length > 2 * n / 3)) = true
    · rw [if_pos hcond] at hs'
      have hb2 : ((b.setVotes votes').setNotarized true).votes.length
          ≤ 2 * n / 3 ∨ ((b.setVotes votes').setNotarized true).notarized
          = true := Or.inr (Block.notarized_setNotarized _ _)
      exact nodeAll_finalization _ _ ci s' hfin hs'
        (nodeAll_setBlockAt _ s ci pos _ hq
          (by simp [Block.notarized_setNotarized]))
    · rw [if_neg hcond] at hs'
      have hs'' := Except.ok.inj hs'
      subst hs''
      refine nodeAll_setBlockAt _ s ci pos _ hq ?_
      simp only [Bool.and_eq_true, Bool.not_eq_true', decide_eq_true_eq,
        not_and, Nat.not_lt] at hcond
      by_cases hb : b.notarized = true
      · simp [Block.notarized_setVotes, hb]
      · have hb' : b.notarized = false := by
          cases hbn : b.notarized
          · rfl
          · exact absurd hbn hb
        have hlen := hcond hb'
        simp [Block.votes_setVotes, Block.notarized_setVotes, hlen]

/-- C2 witness: first vote for the fork block on a three-node network;
the quorum condition does not fire at one vote and P5 is preserved. -/
theorem receive_vote_quorum_notarization_witness :
    verify_sig 1 (signature_encode (exVoteP 1).block) (exVoteP 1).vote = true ∧
    find_block exNodeV (exVoteP 1).block = some (exP, 0, 0) ∧
    ([exVoteP 1] : List Vote) =
      (if containsVote exP.votes (exVoteP 1) then exP.votes
        else exP.votes ++ [exVoteP 1]) ∧
    quorumInv exNodeV 3 = true ∧
    (receive_vote exNodeV 1 (exVoteP 1) 3 =
      if !exP.notarized && decide (([exVoteP 1] : List Vote).length > 2 * 3 / 3)
      then check_blockchain_finalization
        (setBlockAt exNodeV 0 0 ((exP.setVotes [exVoteP 1]).setNotarized true)) 0
      else .ok (setBlockAt exNodeV 0 0 (exP.setVotes [exVoteP 1]))) ∧
    (∀ s', receive_vote exNodeV 1 (exVoteP 1) 3 = .ok s' →
      quorumInv s' 3 = true) :=
  ⟨by decide, rfl, rfl, by decide,
   (receive_vote_quorum_notarization exNodeV 1 (exVoteP 1) 3 exP 0 0
     [exVoteP 1] (by decide) rfl rfl).1,
   (receive_vote_quorum_notarization exNodeV 1 (exVoteP 1) 3 exP 0 0
     [exVoteP 1] (by decide) rfl rfl).2.2.2 (by decide)⟩

end StreamletRust
